import Mathlib

/-!
Verification development for the ingestion pipeline in
`scripts/import_price_history.py`.

The script is embedded shallowly:

* external HTTP responses become explicit parameters (a universe response
  and a function from `(symbol, interval)` to a candle response);
* the PostgreSQL connection becomes a `Conn` value holding a `durable`
  store (committed rows) and a `pending` store (the open transaction);
  `conn.commit()` copies `pending` into `durable`;
* the two SQL statements become pure list operations with the upsert /
  insert-or-ignore semantics of the statements
  (`ON CONFLICT (symbol) DO UPDATE` and `ON CONFLICT DO NOTHING` against
  the unique key `(symbol, timeframe, timestamp)`);
* Python exceptions become an error value threaded through the loops:
  a raise aborts the rest of the run before the final commit.  The single
  deliberate extension point is a fault oracle `fault : Coin → Bool`
  standing for the database rejecting one upsert (`cursor.execute`
  raising, e.g. on a constraint violation); everything else is translated
  directly from the script.
-/

/-- One entry of the CoinGecko `/coins/markets` response, as the script
reads it: `coin['symbol']`, `coin['name']`, `coin.get('image', '')`.
`image := none` models a JSON object without an `image` key. -/
structure Coin where
  symbol : String
  name : String
  image : Option String
deriving DecidableEq, Repr

/-- Python's `str.upper()`, character by character (the tickers are
ASCII). -/
def strUpper (s : String) : String :=
  ⟨s.data.map Char.toUpper⟩

/-- `binance_symbol = coin['symbol'].upper() + 'USDT'`. -/
def binanceSymbol (c : Coin) : String :=
  strUpper c.symbol ++ "USDT"

/-- `coin.get('image', '')`. -/
def coinImage (c : Coin) : String :=
  c.image.getD ""

/-- A row of the `cryptocurrencies` table, with the columns the script
writes.  Rows may carry further columns; `market_type` stands for a
column the upsert's UPDATE branch does not touch. -/
structure CryptoRow where
  symbol : String
  name : String
  market_type : String
  image_url : String
  active : Bool
deriving DecidableEq, Repr

/-- A raw Binance kline as the script consumes it: `candle[0]` is the
open time in milliseconds, `candle[1]`..`candle[5]` are the OHLCV
values as decimal strings.  Trailing array elements are never read. -/
structure RawCandle where
  openTime : Nat
  openStr : String
  highStr : String
  lowStr : String
  closeStr : String
  volumeStr : String
deriving DecidableEq, Repr

/-- Exact decimal number `sig / 10 ^ exp`, the model of a CPython float
here.  Every numeric value the script manipulates is a finite decimal
fraction (a decimal string coerced by `float(...)`, or a millisecond
epoch divided by `1000`), so exact decimals model them with no loss.
Values are kept canonical (smallest exponent, enforced by `Dec.make`),
hence equality of values is structural equality. -/
structure Dec where
  sig : Int
  exp : Nat
deriving DecidableEq, Repr

/-- Strip factors of ten: `(s, e)` with `e` minimal and the same value. -/
def Dec.strip : Int → Nat → Int × Nat
  | s, 0 => (s, 0)
  | s, e + 1 => if Int.emod s 10 = 0 then Dec.strip (Int.ediv s 10) e else (s, e + 1)

/-- Canonical decimal for the value `s / 10 ^ e`. -/
def Dec.make (s : Int) (e : Nat) : Dec :=
  let p := Dec.strip s e
  ⟨p.1, p.2⟩

/-- The integer `n` as a decimal. -/
def Dec.ofNat (n : Nat) : Dec :=
  ⟨n, 0⟩

/-- Exact division by `10 ^ k` (Python's true division by `1000`). -/
def Dec.divPow10 (d : Dec) (k : Nat) : Dec :=
  Dec.make d.sig (d.exp + k)

/-- `⌊d⌋`. -/
def Dec.floor (d : Dec) : Int :=
  Int.fdiv d.sig (10 ^ d.exp)

/-- The result of Python's `datetime.utcfromtimestamp`: a calendar
date-time.  The sub-second part is kept exactly (CPython rounds it to
whole microseconds; the candle epochs are whole seconds, on which the
two agree). -/
structure DateTime where
  year : Int
  month : Nat
  day : Nat
  hour : Nat
  minute : Nat
  second : Nat
  microsecond : Dec
deriving DecidableEq, Repr

/-- Proleptic-Gregorian date for a count of days since 1970-01-01
(the standard civil-from-days algorithm used by datetime libraries). -/
def civilFromDays (z : Int) : Int × Nat × Nat :=
  let zShift : Int := z + 719468
  let era : Int := zShift.fdiv 146097
  let doe : Nat := (zShift.fmod 146097).toNat
  let yoe : Nat := (doe - doe / 1460 + doe / 36524 - doe / 146096) / 365
  let y : Int := (yoe : Int) + era * 400
  let doy : Nat := doe - (365 * yoe + yoe / 4 - yoe / 100)
  let mp : Nat := (5 * doy + 2) / 153
  let d : Nat := doy - (153 * mp + 2) / 5 + 1
  let m : Nat := if mp < 10 then mp + 3 else mp - 9
  (if m ≤ 2 then y + 1 else y, m, d)

/-- `datetime.utcfromtimestamp(q)` for an exact decimal number of
seconds since the epoch. -/
def utcfromtimestamp (q : Dec) : DateTime :=
  let s : Int := q.floor
  let days : Int := s.fdiv 86400
  let sod : Nat := (s.fmod 86400).toNat
  let ymd := civilFromDays days
  { year := ymd.1
    month := ymd.2.1
    day := ymd.2.2
    hour := sod / 3600
    minute := sod % 3600 / 60
    second := sod % 60
    microsecond := Dec.make ((q.sig - s * 10 ^ q.exp) * 1000000) q.exp }

/-- Value of a digit string, most significant first. -/
def natOfDigits (cs : List Char) : Nat :=
  cs.foldl (fun a c => 10 * a + (c.toNat - 48)) 0

/-- All characters are ASCII digits. -/
def allDigits (cs : List Char) : Bool :=
  cs.all (·.isDigit)

/-- Python's `float(...)` on the plain decimal strings Binance returns:
optional sign, digits, optional fractional part.  `none` models
`float(...)` raising `ValueError`. -/
def pyFloat (s : String) : Option Dec :=
  let cs := s.toList
  let signBody : Bool × List Char :=
    match cs with
    | '-' :: t => (true, t)
    | '+' :: t => (false, t)
    | t => (false, t)
  let body := signBody.2
  let sgn : Int := if signBody.1 then -1 else 1
  match body.splitOn '.' with
  | [w] =>
      if w ≠ [] ∧ allDigits w then some (Dec.make (sgn * natOfDigits w) 0) else none
  | [w, f] =>
      if (w ≠ [] ∨ f ≠ []) ∧ allDigits w ∧ allDigits f then
        some (Dec.make (sgn * (natOfDigits w * 10 ^ f.length + natOfDigits f)) f.length)
      else none
  | _ => none

/-- The body of the candle loop before the INSERT: `open_time =
datetime.utcfromtimestamp(candle[0] / 1000)` followed by the five
`float(...)` coercions.  `none` models one of them raising. -/
structure NormCandle where
  open_time : DateTime
  open_price : Dec
  high_price : Dec
  low_price : Dec
  close_price : Dec
  volume : Dec
deriving DecidableEq, Repr

/-- Normalize one raw candle; `none` when a `float(...)` coercion raises. -/
def normalizeCandle (k : RawCandle) : Option NormCandle := do
  let o ← pyFloat k.openStr
  let h ← pyFloat k.highStr
  let l ← pyFloat k.lowStr
  let c ← pyFloat k.closeStr
  let v ← pyFloat k.volumeStr
  pure { open_time := utcfromtimestamp ((Dec.ofNat k.openTime).divPow10 3)
         open_price := o, high_price := h, low_price := l
         close_price := c, volume := v }

/-- A row of the `price_history` table as the script inserts it. -/
structure PriceRow where
  symbol : String
  timeframe : String
  open_price : Dec
  high_price : Dec
  low_price : Dec
  close_price : Dec
  volume : Dec
  timestamp : DateTime
  created_at : DateTime
deriving DecidableEq, Repr

/-- The unique key `(symbol, timeframe, timestamp)` is already present. -/
def keyPresent (rows : List PriceRow) (sym tf : String) (ts : DateTime) : Bool :=
  rows.any (fun r => r.symbol == sym && r.timeframe == tf && r.timestamp == ts)

/-- The `INSERT INTO price_history ... ON CONFLICT DO NOTHING` statement:
insert-or-ignore keyed on `(symbol, timeframe, timestamp)`;
`created_at` is passed the same `open_time` as `timestamp`. -/
def insertPrice (rows : List PriceRow) (sym tf : String) (p : NormCandle) : List PriceRow :=
  if keyPresent rows sym tf p.open_time then rows
  else
    rows ++ [{ symbol := sym, timeframe := tf
               open_price := p.open_price, high_price := p.high_price
               low_price := p.low_price, close_price := p.close_price
               volume := p.volume
               timestamp := p.open_time, created_at := p.open_time }]

/-- A row of the `cryptocurrencies` table whose `symbol` matches. -/
def memSym (s : String) (t : List CryptoRow) : Bool :=
  t.any (fun r => r.symbol == s)

/-- Effect of the upsert's `DO UPDATE SET name = EXCLUDED.name,
image_url = EXCLUDED.image_url, active = true` on one row: touched only
when the row's symbol is the conflicting one. -/
def rowUpdate (c : Coin) (r : CryptoRow) : CryptoRow :=
  if r.symbol = binanceSymbol c then
    { r with name := c.name, image_url := coinImage c, active := true }
  else r

/-- The `INSERT INTO cryptocurrencies ... ON CONFLICT (symbol) DO UPDATE`
statement: insert a fresh row (with `market_type = 'Spot'` and
`active = true`) when the symbol is absent, else update the conflicting
row in place. -/
def upsertCrypto (t : List CryptoRow) (c : Coin) : List CryptoRow :=
  if memSym (binanceSymbol c) t then t.map (rowUpdate c)
  else t ++ [{ symbol := binanceSymbol c, name := c.name, market_type := "Spot"
               image_url := coinImage c, active := true }]

/-- The `timeframes` dict of the script; iteration order is insertion
order, and keys equal values. -/
def timeframes : List (String × String) :=
  [("1m", "1m"), ("5m", "5m"), ("15m", "15m"), ("1h", "1h"), ("4h", "4h"), ("1d", "1d")]

/-- A response of the Binance klines endpoint for one
`(symbol, interval)` request (the request's `limit` is fixed at 200 and
absorbed into the response function). -/
structure BinanceResp where
  status : Nat
  body : List RawCandle

/-- `fetch_binance_candles`: returns the parsed body on HTTP 200 and the
empty list on any other status. -/
def fetch_binance_candles (binance : String → String → BinanceResp)
    (symbol interval : String) : List RawCandle :=
  let r := binance symbol interval
  if r.status == 200 then r.body else []

/-- The CoinGecko `/coins/markets` response.  The script never inspects
the status; `body = none` models a body on which `resp.json()` or the
subsequent iteration raises (not a list of coin objects), `body = some
coins` a body that parses as a coin list. -/
structure UniverseResp where
  status : Nat
  body : Option (List Coin)

/-- A Python exception aborting the run. -/
inductive PyErr
  | typeError
  | valueError
  | dbError
deriving DecidableEq, Repr

/-- The two tables. -/
structure Store where
  cryptocurrencies : List CryptoRow
  price_history : List PriceRow
deriving DecidableEq, Repr

/-- The psycopg2 connection: `pending` is the open transaction's view,
`durable` what is committed.  `conn.commit()` copies `pending` into
`durable`; a run that raises never commits, so `durable` keeps its
initial value. -/
structure Conn where
  durable : Store
  pending : Store
deriving DecidableEq, Repr

/-- Passo 1: the reconcile loop.  For each coin: `cursor.execute` of the
upsert (the oracle `fault` tells whether the database rejects it, in
which case the exception propagates — the script has no per-item
handler), then `symbols.append(binance_symbol)`. -/
def reconcileLoop (fault : Coin → Bool) :
    List Coin → List String → Store → List String × Store × Option PyErr
  | [], syms, st => (syms, st, none)
  | c :: rest, syms, st =>
    if fault c then (syms, st, some .dbError)
    else
      reconcileLoop fault rest (syms ++ [binanceSymbol c])
        { st with cryptocurrencies := upsertCrypto st.cryptocurrencies c }

/-- The inner `for candle in candles` loop: normalize and insert each
candle; a failing `float(...)` coercion raises and aborts. -/
def candleLoop (sym tf : String) :
    List RawCandle → Store → Store × Option PyErr
  | [], st => (st, none)
  | k :: rest, st =>
    match normalizeCandle k with
    | none => (st, some .valueError)
    | some p =>
        candleLoop sym tf rest
          { st with price_history := insertPrice st.price_history sym tf p }

/-- The `for tf_name, tf_binance in timeframes.items()` loop for one
symbol.  Each iteration performs one `fetch_binance_candles` call
(recorded in the returned log) and then the candle loop. -/
def tfLoop (binance : String → String → BinanceResp) (sym : String) :
    List (String × String) → Store → List (String × String) →
      Store × List (String × String) × Option PyErr
  | [], st, log => (st, log, none)
  | (tfName, tfBinance) :: rest, st, log =>
    let log2 := log ++ [(sym, tfBinance)]
    match candleLoop sym tfName (fetch_binance_candles binance sym tfBinance) st with
    | (st2, none) => tfLoop binance sym rest st2 log2
    | (st2, some e) => (st2, log2, some e)

/-- Passo 2: the `for symbol in symbols` loop. -/
def symbolLoop (binance : String → String → BinanceResp) :
    List String → Store → List (String × String) →
      Store × List (String × String) × Option PyErr
  | [], st, log => (st, log, none)
  | s :: rest, st, log =>
    match tfLoop binance s timeframes st log with
    | (st2, log2, none) => symbolLoop binance rest st2 log2
    | (st2, log2, some e) => (st2, log2, some e)

/-- Outcome of a run: the Python exception if one was raised, the final
connection, and the log of `fetch_binance_candles` invocations. -/
structure RunOut where
  error : Option PyErr
  conn : Conn
  fetchLog : List (String × String)
deriving DecidableEq, Repr

/-- The whole script: read the universe response (its status is never
inspected), build `symbols` from the first loop, run Passo 1 (which
appends every symbol to `symbols` a second time), run Passo 2 over the
accumulated `symbols`, then `conn.commit()`. -/
def runScript (uresp : UniverseResp) (binance : String → String → BinanceResp)
    (fault : Coin → Bool) (conn : Conn) : RunOut :=
  match uresp.body with
  | none => ⟨some .typeError, conn, []⟩
  | some coins =>
    match reconcileLoop fault coins (coins.map binanceSymbol) conn.pending with
    | (_, st, some e) => ⟨some e, { conn with pending := st }, []⟩
    | (syms, st, none) =>
      match symbolLoop binance syms st [] with
      | (st2, log, some e) => ⟨some e, { conn with pending := st2 }, log⟩
      | (st2, log, none) => ⟨none, { durable := st2, pending := st2 }, log⟩

/-- Passo 1 as a pure fold over the `cryptocurrencies` table (its effect
when no upsert is rejected). -/
def reconcileAll (coins : List Coin) (t : List CryptoRow) : List CryptoRow :=
  coins.foldl upsertCrypto t

/-- The row-level effect of a sequence of upserts on one existing row. -/
def applyCoins (coins : List Coin) (r : CryptoRow) : CryptoRow :=
  coins.foldl (fun r0 c => rowUpdate c r0) r

/-- The registry row stored under a symbol (the state an SQL `SELECT ...
WHERE symbol = s` observes). -/
def lookupCrypto (t : List CryptoRow) (s : String) : Option CryptoRow :=
  t.find? (fun r => r.symbol == s)

/-- The row-level effect of one upsert on the row stored under `s`. -/
def upStep (c : Coin) (s : String) (v : Option CryptoRow) : Option CryptoRow :=
  if s = binanceSymbol c then
    match v with
    | some r => some { r with name := c.name, image_url := coinImage c, active := true }
    | none =>
        some { symbol := binanceSymbol c, name := c.name, market_type := "Spot"
               image_url := coinImage c, active := true }
  else v

/-- The candle loop for one `(symbol, timeframe)` pair as a pure fold
over the `price_history` table (unparseable candles dropped; under the
well-formedness hypotheses used below none occur). -/
def insertAll (sym tf : String) (ks : List RawCandle) (rows : List PriceRow) : List PriceRow :=
  ks.foldl
    (fun acc k =>
      match normalizeCandle k with
      | some p => insertPrice acc sym tf p
      | none => acc) rows

/-- The timeframe loop for one symbol as a pure fold. -/
def importTfList (binance : String → String → BinanceResp) (sym : String)
    (tfs : List (String × String)) (rows : List PriceRow) : List PriceRow :=
  tfs.foldl (fun acc tf => insertAll sym tf.1 (fetch_binance_candles binance sym tf.2) acc) rows

/-- Passo 2 as a pure fold over the `price_history` table. -/
def importAll (binance : String → String → BinanceResp)
    (syms : List String) (rows : List PriceRow) : List PriceRow :=
  syms.foldl (fun acc s => importTfList binance s timeframes acc) rows

/-- The `(symbol, interval)` fetches Passo 2 performs for a symbol list. -/
def fetchPairs (syms : List String) : List (String × String) :=
  syms.flatMap (fun s => timeframes.map (fun tf => (s, tf.2)))

/-- Every candle any fetch can return parses (`float(...)` never
raises); true of the numeric strings the exchange serves. -/
def WellFormedCandles (binance : String → String → BinanceResp) : Prop :=
  ∀ s i, ∀ k ∈ fetch_binance_candles binance s i, (normalizeCandle k).isSome

/-- Number of candles of a batch skipped as duplicates by the
insert-or-ignore write, processing left to right. -/
def dupSkipped (sym tf : String) : List RawCandle → List PriceRow → Nat
  | [], _ => 0
  | k :: rest, rows =>
    match normalizeCandle k with
    | none => 0
    | some p =>
        (if keyPresent rows sym tf p.open_time then 1 else 0) +
          dupSkipped sym tf rest (insertPrice rows sym tf p)

/-- Fixture: the universe entry of the end-to-end example. -/
def btcCoin : Coin :=
  ⟨"BTC", "Bitcoin", some "img.png"⟩

/-- Fixture: first raw candle of the end-to-end example. -/
def k1 : RawCandle :=
  ⟨1700000000000, "100", "110", "90", "105", "50"⟩

/-- Fixture: second raw candle of the end-to-end example. -/
def k2 : RawCandle :=
  ⟨1700003600000, "105", "108", "95", "106", "40"⟩

/-- Fixture: candle provider serving the two example candles for
`BTCUSDT`/`1h` and an empty body elsewhere. -/
def binance7 : String → String → BinanceResp := fun s i =>
  if s == "BTCUSDT" && i == "1h" then ⟨200, [k1, k2]⟩ else ⟨200, []⟩

/-- Fixture: candle provider always answering 200 with no candles. -/
def binanceEmpty : String → String → BinanceResp := fun _ _ =>
  ⟨200, []⟩

/-- Fixture: candle provider always answering 500 (with a non-empty
body, which `fetch_binance_candles` must discard). -/
def binanceDown : String → String → BinanceResp := fun _ _ =>
  ⟨500, [k1]⟩

/-- Fixture: a connection to an empty database. -/
def conn0 : Conn :=
  ⟨⟨[], []⟩, ⟨[], []⟩⟩

/-- Fixture: calendar time of epoch 1700000000 (2023-11-14 22:13:20 UTC). -/
def ts1 : DateTime :=
  ⟨2023, 11, 14, 22, 13, 20, ⟨0, 0⟩⟩

/-- Fixture: calendar time of epoch 1700003600 (2023-11-14 23:13:20 UTC). -/
def ts2 : DateTime :=
  ⟨2023, 11, 14, 23, 13, 20, ⟨0, 0⟩⟩

/-- Fixture: the stored row the import derives from `k1`. -/
def row1 : PriceRow :=
  ⟨"BTCUSDT", "1h", ⟨100, 0⟩, ⟨110, 0⟩, ⟨90, 0⟩, ⟨105, 0⟩, ⟨50, 0⟩, ts1, ts1⟩

/-- Fixture: the stored row the import derives from `k2`. -/
def row2 : PriceRow :=
  ⟨"BTCUSDT", "1h", ⟨105, 0⟩, ⟨108, 0⟩, ⟨95, 0⟩, ⟨106, 0⟩, ⟨40, 0⟩, ts2, ts2⟩

/-- Fixture: the normalized form of `k1`. -/
def p1 : NormCandle :=
  ⟨ts1, ⟨100, 0⟩, ⟨110, 0⟩, ⟨90, 0⟩, ⟨105, 0⟩, ⟨50, 0⟩⟩

/-- Fixture: a coin whose ticker uppercases to `AAA`. -/
def cX : Coin :=
  ⟨"AAA", "Alpha", none⟩

/-- Fixture: a coin whose ticker uppercases to `BBB`. -/
def cY : Coin :=
  ⟨"BBB", "Beta", none⟩

/-- Fixture: two distinct coins mapping to the same trading symbol
`BTCUSDT` (CoinGecko tickers are not unique after uppercasing). -/
def coinA : Coin :=
  ⟨"BTC", "CoinA", none⟩

/-- Fixture: see `coinA`. -/
def coinB : Coin :=
  ⟨"btc", "CoinB", none⟩

/-- Fixture: the universe response of the end-to-end example. -/
def u7 : UniverseResp :=
  ⟨200, some [btcCoin]⟩


example : civilFromDays 19675 = (2023, 11, 14) := by decide
example : utcfromtimestamp ((Dec.ofNat 1700000000000).divPow10 3) =
    ⟨2023, 11, 14, 22, 13, 20, ⟨0, 0⟩⟩ := by decide
example : pyFloat "105" = some ⟨105, 0⟩ := by decide
example : pyFloat "-3.25" = some ⟨-325, 2⟩ := by decide
example : pyFloat "2.50" = some ⟨25, 1⟩ := by decide
example : pyFloat "x" = none := by decide

lemma rowUpdate_symbol (c : Coin) (r : CryptoRow) :
    (rowUpdate c r).symbol = r.symbol := by
  unfold rowUpdate; split <;> rfl

lemma rowUpdate_market (c : Coin) (r : CryptoRow) :
    (rowUpdate c r).market_type = r.market_type := by
  unfold rowUpdate; split <;> rfl

lemma applyCoins_symbol (l : List Coin) (r : CryptoRow) :
    (applyCoins l r).symbol = r.symbol := by
  induction l generalizing r with
  | nil => rfl
  | cons c rest ih =>
      show (applyCoins rest (rowUpdate c r)).symbol = r.symbol
      rw [ih, rowUpdate_symbol]

lemma applyCoins_market (l : List Coin) (r : CryptoRow) :
    (applyCoins l r).market_type = r.market_type := by
  induction l generalizing r with
  | nil => rfl
  | cons c rest ih =>
      show (applyCoins rest (rowUpdate c r)).market_type = r.market_type
      rw [ih, rowUpdate_market]

lemma applyCoins_append (l : List Coin) (c : Coin) (r : CryptoRow) :
    applyCoins (l ++ [c]) r = rowUpdate c (applyCoins l r) := by
  unfold applyCoins
  rw [List.foldl_append]
  rfl

lemma memSym_map_rowUpdate (s : String) (c : Coin) (t : List CryptoRow) :
    memSym s (t.map (rowUpdate c)) = memSym s t := by
  unfold memSym
  rw [List.any_map]
  congr 1
  funext r
  simp [Function.comp, rowUpdate_symbol]

lemma memSym_upsert_self (t : List CryptoRow) (c : Coin) :
    memSym (binanceSymbol c) (upsertCrypto t c) = true := by
  unfold upsertCrypto
  split
  · rw [memSym_map_rowUpdate]; assumption
  · unfold memSym
    rw [List.any_append]
    simp [memSym]

lemma memSym_upsert_mono (s : String) (t : List CryptoRow) (c : Coin)
    (h : memSym s t = true) : memSym s (upsertCrypto t c) = true := by
  unfold upsertCrypto
  split
  · rw [memSym_map_rowUpdate]; exact h
  · unfold memSym at h ⊢
    rw [List.any_append, h]
    rfl

lemma memSym_reconcileAll_mono (s : String) (l : List Coin) (t : List CryptoRow)
    (h : memSym s t = true) : memSym s (reconcileAll l t) = true := by
  induction l generalizing t with
  | nil => exact h
  | cons c rest ih =>
      show memSym s (reconcileAll rest (upsertCrypto t c)) = true
      exact ih _ (memSym_upsert_mono s t c h)

lemma memSym_reconcileAll (l : List Coin) (t : List CryptoRow) (c : Coin)
    (hc : c ∈ l) : memSym (binanceSymbol c) (reconcileAll l t) = true := by
  induction l generalizing t with
  | nil => cases hc
  | cons a rest ih =>
      rcases List.mem_cons.mp hc with h | h
      · subst h
        show memSym (binanceSymbol c) (reconcileAll rest (upsertCrypto t c)) = true
        exact memSym_reconcileAll_mono _ rest _ (memSym_upsert_self t c)
      · exact ih _ h

lemma reconcileAll_eq_map (l : List Coin) (t : List CryptoRow)
    (h : ∀ c ∈ l, memSym (binanceSymbol c) t = true) :
    reconcileAll l t = t.map (applyCoins l) := by
  induction l generalizing t with
  | nil =>
      show t = t.map (applyCoins [])
      have : applyCoins [] = id := rfl
      rw [this, List.map_id]
  | cons c rest ih =>
      show reconcileAll rest (upsertCrypto t c) = t.map (applyCoins (c :: rest))
      have hc : memSym (binanceSymbol c) t = true := h c (List.mem_cons_self c rest)
      have hup : upsertCrypto t c = t.map (rowUpdate c) := by
        unfold upsertCrypto; rw [if_pos hc]
      rw [hup, ih]
      · rw [List.map_map]
        rfl
      · intro d hd
        rw [memSym_map_rowUpdate]
        exact h d (List.mem_cons_of_mem c hd)

lemma cryptoRow_eq (a b : CryptoRow) (h1 : a.symbol = b.symbol) (h2 : a.name = b.name)
    (h3 : a.market_type = b.market_type) (h4 : a.image_url = b.image_url)
    (h5 : a.active = b.active) : a = b := by
  cases a; cases b; simp_all

lemma memSym_false_forall (s : String) (t : List CryptoRow) (h : memSym s t = false) :
    ∀ r ∈ t, r.symbol ≠ s := by
  intro r hr
  unfold memSym at h
  rw [List.any_eq_false] at h
  have := h r hr
  simpa using this

lemma reconcileAll_append (l : List Coin) (c : Coin) (t : List CryptoRow) :
    reconcileAll (l ++ [c]) t = upsertCrypto (reconcileAll l t) c := by
  unfold reconcileAll
  rw [List.foldl_append]
  rfl

lemma applyCoins_stable (l : List Coin) (t : List CryptoRow) :
    ∀ r ∈ reconcileAll l t, applyCoins l r = r := by
  induction l using List.reverseRecOn with
  | nil =>
      intro r _
      rfl
  | append_singleton l c ih =>
      intro r hr
      rw [reconcileAll_append] at hr
      rw [applyCoins_append]
      unfold upsertCrypto at hr
      by_cases hmem : memSym (binanceSymbol c) (reconcileAll l t) = true
      · rw [if_pos hmem] at hr
        obtain ⟨r0, hr0, rfl⟩ := List.mem_map.mp hr
        by_cases hsym : r0.symbol = binanceSymbol c
        · have hupd : rowUpdate c r0 =
              { r0 with name := c.name, image_url := coinImage c, active := true } := by
            unfold rowUpdate; rw [if_pos hsym]
          rw [hupd]
          set u : CryptoRow :=
            { r0 with name := c.name, image_url := coinImage c, active := true } with hu
          have hwsym : (applyCoins l u).symbol = binanceSymbol c := by
            rw [applyCoins_symbol]; exact hsym
          have hstep : rowUpdate c (applyCoins l u) =
              { applyCoins l u with
                  name := c.name, image_url := coinImage c, active := true } := by
            unfold rowUpdate; rw [if_pos hwsym]
          rw [hstep]
          apply cryptoRow_eq
          · exact hwsym.trans hsym.symm
          · rfl
          · rw [applyCoins_market]
          · rfl
          · rfl
        · have hupd : rowUpdate c r0 = r0 := by
            unfold rowUpdate; rw [if_neg hsym]
          rw [hupd, ih r0 hr0]
          exact hupd
      · rw [if_neg hmem] at hr
        rcases List.mem_append.mp hr with hin | hnew
        · have hne : r.symbol ≠ binanceSymbol c :=
            memSym_false_forall _ _ (Bool.not_eq_true _ ▸ eq_false_of_ne_true hmem) r hin
          rw [ih r hin]
          unfold rowUpdate
          rw [if_neg hne]
        · have hrn : r =
              { symbol := binanceSymbol c, name := c.name, market_type := "Spot"
                image_url := coinImage c, active := true } := by
            simpa using hnew
          subst hrn
          have hwsym : (applyCoins l
              ({ symbol := binanceSymbol c, name := c.name, market_type := "Spot"
                 image_url := coinImage c, active := true } : CryptoRow)).symbol =
              binanceSymbol c := by
            rw [applyCoins_symbol]
          have hstep : ∀ w : CryptoRow, w.symbol = binanceSymbol c →
              rowUpdate c w =
                { w with name := c.name, image_url := coinImage c, active := true } := by
            intro w hw
            unfold rowUpdate; rw [if_pos hw]
          rw [hstep _ hwsym]
          apply cryptoRow_eq
          · exact hwsym
          · rfl
          · rw [applyCoins_market]
          · rfl
          · rfl

lemma reconcileAll_idem (l : List Coin) (t : List CryptoRow) :
    reconcileAll l (reconcileAll l t) = reconcileAll l t := by
  rw [reconcileAll_eq_map l _ (fun c hc => memSym_reconcileAll l t c hc)]
  have hst := applyCoins_stable l t
  calc (reconcileAll l t).map (applyCoins l)
      = (reconcileAll l t).map id := List.map_congr_left hst
    _ = reconcileAll l t := List.map_id _

lemma keyPresent_insert_mono (rows : List PriceRow) (sym tf : String) (ts : DateTime)
    (sym2 tf2 : String) (p : NormCandle)
    (h : keyPresent rows sym tf ts = true) :
    keyPresent (insertPrice rows sym2 tf2 p) sym tf ts = true := by
  unfold insertPrice
  split
  · exact h
  · unfold keyPresent at h ⊢
    rw [List.any_append, h]
    rfl

lemma keyPresent_insert_self (rows : List PriceRow) (sym tf : String) (p : NormCandle) :
    keyPresent (insertPrice rows sym tf p) sym tf p.open_time = true := by
  unfold insertPrice
  split
  · assumption
  · unfold keyPresent
    rw [List.any_append]
    simp [keyPresent]

lemma keyPresent_insertAll_mono (sym tf : String) (ts : DateTime)
    (sym2 tf2 : String) (ks : List RawCandle) (rows : List PriceRow)
    (h : keyPresent rows sym tf ts = true) :
    keyPresent (insertAll sym2 tf2 ks rows) sym tf ts = true := by
  induction ks generalizing rows with
  | nil => exact h
  | cons k rest ih =>
      unfold insertAll
      rw [List.foldl_cons]
      rcases hn : normalizeCandle k with _ | p
      · simp only [hn]
        exact ih rows h
      · simp only [hn]
        exact ih _ (keyPresent_insert_mono rows sym tf ts sym2 tf2 p h)

lemma keyPresent_importTfList_mono (binance : String → String → BinanceResp)
    (sym tf : String) (ts : DateTime) (s2 : String) (tfs : List (String × String))
    (rows : List PriceRow) (h : keyPresent rows sym tf ts = true) :
    keyPresent (importTfList binance s2 tfs rows) sym tf ts = true := by
  induction tfs generalizing rows with
  | nil => exact h
  | cons t2 rest ih =>
      unfold importTfList
      rw [List.foldl_cons]
      exact ih _ (keyPresent_insertAll_mono sym tf ts s2 t2.1 _ rows h)

lemma keyPresent_importAll_mono (binance : String → String → BinanceResp)
    (sym tf : String) (ts : DateTime) (syms : List String)
    (rows : List PriceRow) (h : keyPresent rows sym tf ts = true) :
    keyPresent (importAll binance syms rows) sym tf ts = true := by
  induction syms generalizing rows with
  | nil => exact h
  | cons s rest ih =>
      unfold importAll
      rw [List.foldl_cons]
      exact ih _ (keyPresent_importTfList_mono binance sym tf ts s timeframes rows h)

lemma keyPresent_after_insertAll (sym tf : String) (ks : List RawCandle)
    (rows : List PriceRow) (k : RawCandle) (hk : k ∈ ks) (p : NormCandle)
    (hp : normalizeCandle k = some p) :
    keyPresent (insertAll sym tf ks rows) sym tf p.open_time = true := by
  induction ks generalizing rows with
  | nil => cases hk
  | cons a rest ih =>
      unfold insertAll
      rw [List.foldl_cons]
      rcases List.mem_cons.mp hk with h | h
      · subst h
        rw [hp]
        exact keyPresent_insertAll_mono sym tf p.open_time sym tf rest _
          (keyPresent_insert_self rows sym tf p)
      · rcases hn : normalizeCandle a with _ | q
        · simp only [hn]
          exact ih rows h
        · simp only [hn]
          exact ih _ h

lemma insertAll_of_present (sym tf : String) (ks : List RawCandle) (rows : List PriceRow)
    (h : ∀ k ∈ ks, ∀ p, normalizeCandle k = some p →
      keyPresent rows sym tf p.open_time = true) :
    insertAll sym tf ks rows = rows := by
  induction ks with
  | nil => rfl
  | cons a rest ih =>
      unfold insertAll
      rw [List.foldl_cons]
      rcases hn : normalizeCandle a with _ | p
      · simp only [hn]
        exact ih (fun k hk p hp => h k (List.mem_cons_of_mem a hk) p hp)
      · simp only [hn]
        have hpres : keyPresent rows sym tf p.open_time = true :=
          h a (List.mem_cons_self a rest) p hn
        have hins : insertPrice rows sym tf p = rows := by
          unfold insertPrice
          rw [if_pos hpres]
        rw [hins]
        exact ih (fun k hk p2 hp2 => h k (List.mem_cons_of_mem a hk) p2 hp2)

lemma keyPresent_after_importTfList (binance : String → String → BinanceResp)
    (sym : String) (tfs : List (String × String)) (rows : List PriceRow)
    (tf : String × String) (htf : tf ∈ tfs) (k : RawCandle)
    (hk : k ∈ fetch_binance_candles binance sym tf.2) (p : NormCandle)
    (hp : normalizeCandle k = some p) :
    keyPresent (importTfList binance sym tfs rows) sym tf.1 p.open_time = true := by
  induction tfs generalizing rows with
  | nil => cases htf
  | cons t2 rest ih =>
      unfold importTfList
      rw [List.foldl_cons]
      rcases List.mem_cons.mp htf with h | h
      · subst h
        exact keyPresent_importTfList_mono binance sym tf.1 p.open_time sym rest _
          (keyPresent_after_insertAll sym tf.1 _ rows k hk p hp)
      · exact ih _ h

lemma keyPresent_after_importAll (binance : String → String → BinanceResp)
    (syms : List String) (rows : List PriceRow) (s : String) (hs : s ∈ syms)
    (tf : String × String) (htf : tf ∈ timeframes) (k : RawCandle)
    (hk : k ∈ fetch_binance_candles binance s tf.2) (p : NormCandle)
    (hp : normalizeCandle k = some p) :
    keyPresent (importAll binance syms rows) s tf.1 p.open_time = true := by
  induction syms generalizing rows with
  | nil => cases hs
  | cons s0 rest ih =>
      unfold importAll
      rw [List.foldl_cons]
      rcases List.mem_cons.mp hs with h | h
      · subst h
        exact keyPresent_importAll_mono binance s tf.1 p.open_time rest _
          (keyPresent_after_importTfList binance s timeframes rows tf htf k hk p hp)
      · exact ih _ h

lemma importTfList_of_present (binance : String → String → BinanceResp)
    (sym : String) (tfs : List (String × String)) (rows : List PriceRow)
    (h : ∀ tf ∈ tfs, ∀ k ∈ fetch_binance_candles binance sym tf.2,
      ∀ p, normalizeCandle k = some p → keyPresent rows sym tf.1 p.open_time = true) :
    importTfList binance sym tfs rows = rows := by
  induction tfs with
  | nil => rfl
  | cons t2 rest ih =>
      unfold importTfList
      rw [List.foldl_cons]
      have hhead : insertAll sym t2.1 (fetch_binance_candles binance sym t2.2) rows = rows :=
        insertAll_of_present sym t2.1 _ rows
          (fun k hk p hp => h t2 (List.mem_cons_self t2 rest) k hk p hp)
      rw [hhead]
      exact ih (fun tf htf k hk p hp => h tf (List.mem_cons_of_mem t2 htf) k hk p hp)

lemma importAll_of_present (binance : String → String → BinanceResp)
    (syms : List String) (rows : List PriceRow)
    (h : ∀ s ∈ syms, ∀ tf ∈ timeframes, ∀ k ∈ fetch_binance_candles binance s tf.2,
      ∀ p, normalizeCandle k = some p → keyPresent rows s tf.1 p.open_time = true) :
    importAll binance syms rows = rows := by
  induction syms with
  | nil => rfl
  | cons s0 rest ih =>
      unfold importAll
      rw [List.foldl_cons]
      have hhead : importTfList binance s0 timeframes rows = rows :=
        importTfList_of_present binance s0 timeframes rows
          (fun tf htf k hk p hp => h s0 (List.mem_cons_self s0 rest) tf htf k hk p hp)
      rw [hhead]
      exact ih (fun s hs tf htf k hk p hp => h s (List.mem_cons_of_mem s0 hs) tf htf k hk p hp)

lemma importAll_idem (binance : String → String → BinanceResp)
    (syms : List String) (rows : List PriceRow) :
    importAll binance syms (importAll binance syms rows) = importAll binance syms rows :=
  importAll_of_present binance syms _
    (fun s hs tf htf k hk p hp =>
      keyPresent_after_importAll binance syms rows s hs tf htf k hk p hp)

lemma reconcileLoop_noFault (fault : Coin → Bool) (coins : List Coin)
    (syms : List String) (st : Store) (h : ∀ c ∈ coins, fault c = false) :
    reconcileLoop fault coins syms st =
      (syms ++ coins.map binanceSymbol,
       { st with cryptocurrencies := reconcileAll coins st.cryptocurrencies }, none) := by
  induction coins generalizing syms st with
  | nil => simp [reconcileLoop, reconcileAll]
  | cons c rest ih =>
      unfold reconcileLoop
      rw [h c (List.mem_cons_self c rest)]
      simp only [Bool.false_eq_true, if_false]
      rw [ih _ _ (fun x hx => h x (List.mem_cons_of_mem c hx))]
      simp [reconcileAll, List.append_assoc]

lemma reconcileLoop_fault_at (fault : Coin → Bool) (pre : List Coin) (c : Coin)
    (post : List Coin) (syms : List String) (st : Store)
    (hpre : ∀ x ∈ pre, fault x = false) (hc : fault c = true) :
    reconcileLoop fault (pre ++ c :: post) syms st =
      (syms ++ pre.map binanceSymbol,
       { st with cryptocurrencies := reconcileAll pre st.cryptocurrencies },
       some .dbError) := by
  induction pre generalizing syms st with
  | nil =>
      unfold reconcileLoop
      rw [List.nil_append]
      simp [hc, reconcileAll]
  | cons a rest ih =>
      rw [List.cons_append]
      unfold reconcileLoop
      rw [hpre a (List.mem_cons_self a rest)]
      simp only [Bool.false_eq_true, if_false]
      rw [ih _ _ (fun x hx => hpre x (List.mem_cons_of_mem a hx))]
      simp [reconcileAll, List.append_assoc]

lemma candleLoop_wf (sym tf : String) (ks : List RawCandle) (st : Store)
    (h : ∀ k ∈ ks, (normalizeCandle k).isSome) :
    candleLoop sym tf ks st =
      ({ st with price_history := insertAll sym tf ks st.price_history }, none) := by
  induction ks generalizing st with
  | nil => simp [candleLoop, insertAll]
  | cons k rest ih =>
      obtain ⟨p, hp⟩ := Option.isSome_iff_exists.mp (h k (List.mem_cons_self k rest))
      unfold candleLoop
      rw [hp]
      dsimp only
      rw [ih _ (fun x hx => h x (List.mem_cons_of_mem k hx))]
      simp [insertAll, hp]

lemma tfLoop_wf (binance : String → String → BinanceResp) (sym : String)
    (tfs : List (String × String)) (st : Store) (log : List (String × String))
    (h : ∀ tf ∈ tfs, ∀ k ∈ fetch_binance_candles binance sym tf.2,
      (normalizeCandle k).isSome) :
    tfLoop binance sym tfs st log =
      ({ st with price_history := importTfList binance sym tfs st.price_history },
       log ++ tfs.map (fun tf => (sym, tf.2)), none) := by
  induction tfs generalizing st log with
  | nil => simp [tfLoop, importTfList]
  | cons t2 rest ih =>
      obtain ⟨tfName, tfBin⟩ := t2
      unfold tfLoop
      rw [candleLoop_wf sym tfName _ st (h (tfName, tfBin) (List.mem_cons_self _ rest))]
      dsimp only
      rw [ih _ _ (fun tf htf => h tf (List.mem_cons_of_mem _ htf))]
      simp [importTfList, insertAll, List.append_assoc]

lemma symbolLoop_wf (binance : String → String → BinanceResp) (syms : List String)
    (st : Store) (log : List (String × String)) (h : WellFormedCandles binance) :
    symbolLoop binance syms st log =
      ({ st with price_history := importAll binance syms st.price_history },
       log ++ fetchPairs syms, none) := by
  induction syms generalizing st log with
  | nil => simp [symbolLoop, importAll, fetchPairs]
  | cons s rest ih =>
      unfold symbolLoop
      rw [tfLoop_wf binance s timeframes st log (fun tf _ k hk => h s tf.2 k hk)]
      dsimp only
      rw [ih _ _]
      simp [importAll, fetchPairs, List.append_assoc]

lemma runScript_wf (u : UniverseResp) (binance : String → String → BinanceResp)
    (coins : List Coin) (conn : Conn) (hbody : u.body = some coins)
    (hwf : WellFormedCandles binance) :
    runScript u binance (fun _ => false) conn =
      ⟨none,
       ⟨⟨reconcileAll coins conn.pending.cryptocurrencies,
         importAll binance (coins.map binanceSymbol ++ coins.map binanceSymbol)
           conn.pending.price_history⟩,
        ⟨reconcileAll coins conn.pending.cryptocurrencies,
         importAll binance (coins.map binanceSymbol ++ coins.map binanceSymbol)
           conn.pending.price_history⟩⟩,
       fetchPairs (coins.map binanceSymbol ++ coins.map binanceSymbol)⟩ := by
  unfold runScript
  rw [hbody]
  dsimp only
  rw [reconcileLoop_noFault _ coins _ conn.pending (fun _ _ => rfl)]
  dsimp only
  rw [symbolLoop_wf binance _ _ [] hwf]
  rfl

lemma lookupCrypto_upsert (t : List CryptoRow) (c : Coin) (s : String) :
    lookupCrypto (upsertCrypto t c) s = upStep c s (lookupCrypto t s) := by
  unfold upsertCrypto
  by_cases hmem : memSym (binanceSymbol c) t = true
  · rw [if_pos hmem]
    unfold lookupCrypto
    rw [List.find?_map]
    have hpred : ((fun r : CryptoRow => r.symbol == s) ∘ rowUpdate c) =
        (fun r : CryptoRow => r.symbol == s) := by
      funext r
      simp [Function.comp, rowUpdate_symbol]
    rw [hpred]
    unfold upStep
    by_cases hs : s = binanceSymbol c
    · rw [if_pos hs]
      rcases hf : List.find? (fun r : CryptoRow => r.symbol == s) t with _ | r
      · exfalso
        unfold memSym at hmem
        rw [← hs] at hmem
        have : (List.find? (fun r : CryptoRow => r.symbol == s) t).isSome = true := by
          rw [List.find?_isSome]
          rw [List.any_eq_true] at hmem
          exact hmem
        rw [hf] at this
        cases this
      · have hsym : r.symbol = s := by
          have := List.find?_some hf
          simpa using this
        dsimp only [Option.map]
        unfold rowUpdate
        rw [if_pos (hsym.trans hs)]
    · rw [if_neg hs]
      rcases hf : List.find? (fun r : CryptoRow => r.symbol == s) t with _ | r
      · rfl
      · have hsym : r.symbol = s := by
          have := List.find?_some hf
          simpa using this
        dsimp only [Option.map]
        unfold rowUpdate
        rw [if_neg (by rw [hsym]; exact hs)]
  · rw [if_neg hmem]
    unfold lookupCrypto
    rw [List.find?_append]
    unfold upStep
    by_cases hs : s = binanceSymbol c
    · rw [if_pos hs]
      have hnone : List.find? (fun r : CryptoRow => r.symbol == s) t = none := by
        rcases hf : List.find? (fun r : CryptoRow => r.symbol == s) t with _ | r
        · rfl
        · exfalso
          have hsym : r.symbol = s := by
            have := List.find?_some hf
            simpa using this
          have hrmem : r ∈ t := List.mem_of_find?_eq_some hf
          apply memSym_false_forall (binanceSymbol c) t
            (by simpa using hmem) r hrmem
          rw [hsym, hs]
      rw [hnone]
      simp [List.find?_cons, hs]
    · rw [if_neg hs]
      rcases hf : List.find? (fun r : CryptoRow => r.symbol == s) t with _ | r
      · simp only [Option.or]
        rw [List.find?_cons]
        have : (({ symbol := binanceSymbol c, name := c.name, market_type := "Spot"
                   image_url := coinImage c, active := true } : CryptoRow).symbol == s) =
            false := by
          simp only [beq_eq_false_iff_ne]
          intro hcontra
          exact hs hcontra.symm
        rw [this]
        rfl
      · rfl

lemma lookupCrypto_reconcileAll (l : List Coin) (t : List CryptoRow) (s : String) :
    lookupCrypto (reconcileAll l t) s =
      l.foldl (fun v c => upStep c s v) (lookupCrypto t s) := by
  induction l generalizing t with
  | nil => rfl
  | cons c rest ih =>
      show lookupCrypto (reconcileAll rest (upsertCrypto t c)) s = _
      rw [ih, lookupCrypto_upsert]
      rfl

lemma upStep_comm (x y : Coin) (s : String) (hxy : binanceSymbol x ≠ binanceSymbol y)
    (v : Option CryptoRow) :
    upStep y s (upStep x s v) = upStep x s (upStep y s v) := by
  unfold upStep
  by_cases h1 : s = binanceSymbol x
  · have h2 : ¬s = binanceSymbol y := fun h => hxy (h1 ▸ h)
    simp only [if_pos h1, if_neg h2]
  · by_cases h2 : s = binanceSymbol y
    · simp only [if_pos h2, if_neg h1]
    · simp only [if_neg h1, if_neg h2]

/-- Claim C1: the claim states one candle-import invocation per
(symbol, timeframe) pair (6 per asset).  Evaluating the script on a
one-asset universe shows 12 fetch invocations — each symbol is appended
to `symbols` twice (once by the initial listing loop, once more inside
the reconcile loop), so every pair is imported twice. -/
theorem claim_C1_eval :
    (runScript ⟨200, some [btcCoin]⟩ binanceEmpty (fun _ => false) conn0).fetchLog =
      [("BTCUSDT", "1m"), ("BTCUSDT", "5m"), ("BTCUSDT", "15m"),
       ("BTCUSDT", "1h"), ("BTCUSDT", "4h"), ("BTCUSDT", "1d"),
       ("BTCUSDT", "1m"), ("BTCUSDT", "5m"), ("BTCUSDT", "15m"),
       ("BTCUSDT", "1h"), ("BTCUSDT", "4h"), ("BTCUSDT", "1d")] ∧
    (runScript ⟨200, some [btcCoin]⟩ binanceEmpty (fun _ => false) conn0).fetchLog.length =
      12 := by
  constructor
  · decide
  · decide

/-- Claim C3 (counterexample): a batch of two assets where the database
rejects the first upsert.  The run aborts at once: the second asset is
never upserted (`pending` stays empty) and the candle-import phase never
runs (no fetches logged), contradicting the claim that the remaining
upserts are still performed and the run continues. -/
theorem claim_C3_counterexample :
    runScript ⟨200, some [cX, cY]⟩ binanceEmpty (fun c => c.symbol == "AAA") conn0 =
      ⟨some .dbError, conn0, []⟩ ∧
    memSym "BBBUSDT"
      (runScript ⟨200, some [cX, cY]⟩ binanceEmpty (fun c => c.symbol == "AAA")
        conn0).conn.pending.cryptocurrencies = false := by
  constructor
  · decide
  · decide

/-- Claim C3 (amended): if the upsert of a single asset fails, the
exception propagates: the earlier upserts of the batch stay in the
transaction, but the remaining upserts are not performed, the
candle-import phase never runs, and the run aborts (uncommitted). -/
theorem claim_C3_amended (u : UniverseResp) (binance : String → String → BinanceResp)
    (fault : Coin → Bool) (pre : List Coin) (c : Coin) (post : List Coin) (conn : Conn)
    (hbody : u.body = some (pre ++ c :: post))
    (hpre : ∀ x ∈ pre, fault x = false) (hc : fault c = true) :
    runScript u binance fault conn =
      ⟨some .dbError,
       { conn with pending :=
          { conn.pending with
              cryptocurrencies := reconcileAll pre conn.pending.cryptocurrencies } },
       []⟩ := by
  unfold runScript
  rw [hbody]
  dsimp only
  rw [reconcileLoop_fault_at fault pre c post _ conn.pending hpre hc]

/-- Witness for the amended C3 at a concrete two-asset batch whose
second upsert is rejected. -/
theorem claim_C3_witness :
    runScript ⟨200, some ([cX] ++ cY :: [])⟩ binanceEmpty (fun c => c.symbol == "BBB")
        conn0 =
      ⟨some .dbError,
       { conn0 with pending :=
          { conn0.pending with
              cryptocurrencies := reconcileAll [cX] conn0.pending.cryptocurrencies } },
       []⟩ :=
  claim_C3_amended ⟨200, some ([cX] ++ cY :: [])⟩ binanceEmpty _ [cX] cY [] conn0 rfl
    (by decide) (by decide)

/-- Claim C4 (counterexample): a universe response with non-success
status 500 whose body still parses as a coin list.  The script never
checks the status, so the run completes normally and commits rows to
`cryptocurrencies` — it does not terminate before the reconciliation
and import phases. -/
theorem claim_C4_counterexample :
    (runScript ⟨500, some [btcCoin]⟩ binanceEmpty (fun _ => false) conn0).error = none ∧
    (runScript ⟨500, some [btcCoin]⟩ binanceEmpty (fun _ => false)
        conn0).conn.durable.cryptocurrencies ≠ [] := by
  constructor
  · decide
  · decide

/-- Claim C4 (amended): the run never inspects the universe response's
status; it terminates before the reconciliation and import phases, with
no rows written, exactly when the body fails to parse as a coin list,
and otherwise behaves identically for every status value. -/
theorem claim_C4_amended (u : UniverseResp) (binance : String → String → BinanceResp)
    (fault : Coin → Bool) (conn : Conn) (s1 s2 : Nat) :
    (u.body = none → runScript u binance fault conn = ⟨some .typeError, conn, []⟩) ∧
    runScript ⟨s1, u.body⟩ binance fault conn = runScript ⟨s2, u.body⟩ binance fault conn := by
  constructor
  · intro h
    unfold runScript
    rw [h]
  · rfl

/-- Witness for the amended C4: an unparseable 404 body aborts with no
writes, and statuses 404 and 200 with the same parseable body give
identical runs. -/
theorem claim_C4_witness :
    runScript ⟨404, (none : Option (List Coin))⟩ binanceEmpty (fun _ => false) conn0 =
      ⟨some .typeError, conn0, []⟩ ∧
    runScript ⟨404, some [btcCoin]⟩ binanceEmpty (fun _ => false) conn0 =
      runScript ⟨200, some [btcCoin]⟩ binanceEmpty (fun _ => false) conn0 :=
  ⟨(claim_C4_amended ⟨404, none⟩ binanceEmpty (fun _ => false) conn0 0 0).1 rfl,
   (claim_C4_amended ⟨999, some [btcCoin]⟩ binanceEmpty (fun _ => false) conn0 404 200).2⟩

/-- Claim C10: durability is all-or-nothing.  Writes reach `durable`
only through the single commit after the whole cross-product loop; if
the run raises anywhere before it (unparseable universe body, rejected
upsert, failing float coercion), the committed state is exactly the
initial one — zero rows persisted in either table. -/
theorem claim_C10 (u : UniverseResp) (binance : String → String → BinanceResp)
    (fault : Coin → Bool) (conn : Conn) (e : PyErr)
    (h : (runScript u binance fault conn).error = some e) :
    (runScript u binance fault conn).conn.durable = conn.durable := by
  unfold runScript at h ⊢
  rcases hb : u.body with _ | coins
  · rfl
  · rw [hb] at h
    dsimp only at h ⊢
    rcases hr : reconcileLoop fault coins (coins.map binanceSymbol) conn.pending with
      ⟨syms, st, err⟩
    rcases err with _ | e2
    · rw [hr] at h
      dsimp only at h ⊢
      rcases hs : symbolLoop binance syms st [] with ⟨st2, log, err2⟩
      rw [hs] at h
      rcases err2 with _ | e3
      · exact Option.noConfusion h
      · rfl
    · rw [hr] at h

/-- Witness for C10: a run aborted by an unparseable universe body
leaves the committed state untouched. -/
theorem claim_C10_witness :
    (runScript ⟨500, (none : Option (List Coin))⟩ binanceEmpty (fun _ => false)
        conn0).conn.durable = conn0.durable :=
  claim_C10 ⟨500, none⟩ binanceEmpty (fun _ => false) conn0 .typeError rfl

/-- Claim C5: a candle-source call with a non-success status yields the
empty sequence instead of failing, and a (symbol, timeframe) pair whose
fetch is empty writes zero rows while the loop still proceeds to the
remaining pairs. -/
theorem claim_C5 :
    (∀ (binance : String → String → BinanceResp) (s i : String),
      (binance s i).status ≠ 200 → fetch_binance_candles binance s i = []) ∧
    (∀ (binance : String → String → BinanceResp) (sym tfName tfBin : String)
      (rest : List (String × String)) (st : Store) (log : List (String × String)),
      fetch_binance_candles binance sym tfBin = [] →
      tfLoop binance sym ((tfName, tfBin) :: rest) st log =
        tfLoop binance sym rest st (log ++ [(sym, tfBin)])) := by
  constructor
  · intro binance s i h
    unfold fetch_binance_candles
    rw [if_neg]
    intro hc
    exact h (by simpa using hc)
  · intro binance sym tfName tfBin rest st log h
    conv_lhs => unfold tfLoop
    rw [h]
    rfl

/-- Witness for C5: a provider answering 500 with a non-empty body is
read as no candles, and the pair's iteration reduces to processing the
remaining pairs with the store unchanged. -/
theorem claim_C5_witness :
    fetch_binance_candles binanceDown "BTCUSDT" "1d" = [] ∧
    tfLoop binanceDown "BTCUSDT" [("1d", "1d")] ⟨[], []⟩ [] =
      tfLoop binanceDown "BTCUSDT" [] ⟨[], []⟩ ([] ++ [("BTCUSDT", "1d")]) :=
  ⟨claim_C5.1 binanceDown "BTCUSDT" "1d" (by decide),
   claim_C5.2 binanceDown "BTCUSDT" "1d" "1d" [] ⟨[], []⟩ []
     (claim_C5.1 binanceDown "BTCUSDT" "1d" (by decide))⟩

/-- Claim C6: upserting an asset whose symbol already exists leaves the
table's length unchanged and rewrites each row to itself except the
matching one, on which exactly `name`, `image_url` and `active` (set to
`true`) change — `symbol` and `market_type` are carried over from the
stored row. -/
theorem claim_C6 (t : List CryptoRow) (c : Coin)
    (h : memSym (binanceSymbol c) t = true) :
    (upsertCrypto t c).length = t.length ∧
    ∀ i : Nat, (upsertCrypto t c)[i]? =
      t[i]?.map (fun r =>
        if r.symbol = binanceSymbol c then
          { r with name := c.name, image_url := coinImage c, active := true }
        else r) := by
  have hup : upsertCrypto t c = t.map (rowUpdate c) := by
    unfold upsertCrypto
    rw [if_pos h]
  constructor
  · rw [hup, List.length_map]
  · intro i
    rw [hup, List.getElem?_map]
    rfl

/-- Witness for C6 at a stored row with `market_type = "Futures"`: the
upsert rewrites name, image and active and keeps the market type. -/
theorem claim_C6_witness :
    memSym (binanceSymbol btcCoin)
        [⟨"BTCUSDT", "Old", "Futures", "old.png", false⟩] = true ∧
    (upsertCrypto [⟨"BTCUSDT", "Old", "Futures", "old.png", false⟩] btcCoin).length = 1 ∧
    (upsertCrypto [⟨"BTCUSDT", "Old", "Futures", "old.png", false⟩] btcCoin)[0]? =
      some ⟨"BTCUSDT", "Bitcoin", "Futures", "img.png", true⟩ := by
  refine ⟨by decide, ?_, ?_⟩
  · exact (claim_C6 [⟨"BTCUSDT", "Old", "Futures", "old.png", false⟩] btcCoin
      (by decide)).1
  · have := (claim_C6 [⟨"BTCUSDT", "Old", "Futures", "old.png", false⟩] btcCoin
      (by decide)).2 0
    rw [this]
    decide

/-- Claim C7: the end-to-end example.  With a one-asset universe
(ticker BTC, name Bitcoin, image img.png) and two raw string candles for
BTCUSDT/1h at millisecond epochs 1700000000000 and 1700003600000, the
run commits one asset row (BTCUSDT, Bitcoin, Spot, active) and two
candle rows whose timestamps are the calendar times 2023-11-14 22:13:20
and 23:13:20 UTC, whose OHLCV fields are the strings coerced to numbers,
and whose `created_at` equals the timestamp. -/
theorem claim_C7 :
    (runScript u7 binance7 (fun _ => false) conn0).error = none ∧
    (runScript u7 binance7 (fun _ => false) conn0).conn.durable =
      ⟨[⟨"BTCUSDT", "Bitcoin", "Spot", "img.png", true⟩], [row1, row2]⟩ := by
  constructor
  · decide
  · decide

lemma hwf_binance7 : WellFormedCandles binance7 := by
  intro s i k hk
  simp only [fetch_binance_candles, binance7] at hk
  by_cases hb : (s == "BTCUSDT" && i == "1h") = true
  · rw [if_pos hb] at hk
    simp at hk
    rcases hk with rfl | rfl <;> decide
  · rw [if_neg hb] at hk
    simp at hk

/-- Claim C2: idempotence.  Running the whole pipeline a second time
with the same external responses (no database faults, parseable
candles) leaves the connection — both committed and pending state —
exactly as after the first run; and re-inserting a candle whose
(symbol, timeframe, timestamp) key is already stored is a no-op, never
an update. -/
theorem claim_C2 (u : UniverseResp) (binance : String → String → BinanceResp)
    (coins : List Coin) (conn : Conn) (hbody : u.body = some coins)
    (hwf : WellFormedCandles binance) :
    (runScript u binance (fun _ => false)
        ((runScript u binance (fun _ => false) conn).conn)).conn =
      (runScript u binance (fun _ => false) conn).conn ∧
    (∀ (rows : List PriceRow) (sym tf : String) (p : NormCandle),
      keyPresent rows sym tf p.open_time = true → insertPrice rows sym tf p = rows) := by
  constructor
  · rw [runScript_wf u binance coins conn hbody hwf]
    rw [runScript_wf u binance coins _ hbody hwf]
    dsimp only
    rw [reconcileAll_idem, importAll_idem]
  · intro rows sym tf p hp
    unfold insertPrice
    rw [if_pos hp]

/-- Witness for C2 on the end-to-end example inputs, plus a concrete
duplicate insert that leaves the table unchanged. -/
theorem claim_C2_witness :
    (runScript u7 binance7 (fun _ => false)
        ((runScript u7 binance7 (fun _ => false) conn0).conn)).conn =
      (runScript u7 binance7 (fun _ => false) conn0).conn ∧
    insertPrice [row1] "BTCUSDT" "1h" p1 = [row1] :=
  ⟨(claim_C2 u7 binance7 [btcCoin] conn0 rfl hwf_binance7).1,
   (claim_C2 u7 binance7 [btcCoin] conn0 rfl hwf_binance7).2 [row1] "BTCUSDT" "1h" p1
     (by decide)⟩

/-- Claim C8 (counterexample): two distinct universe entries whose
tickers collide after uppercasing ("BTC" and "btc", both mapping to
symbol BTCUSDT) with different names.  The batch and its reversal are
permutations of each other yet reconcile to different stored states
(the later entry's name wins), so reconciliation is not
permutation-invariant in general. -/
theorem claim_C8_counterexample :
    ([coinA, coinB] : List Coin).Perm [coinB, coinA] ∧
    (reconcileLoop (fun _ => false) [coinA, coinB] [] ⟨[], []⟩).2.1 ≠
      (reconcileLoop (fun _ => false) [coinB, coinA] [] ⟨[], []⟩).2.1 := by
  constructor
  · decide
  · decide

/-- Claim C8 (amended): for batches whose derived trading symbols are
pairwise distinct, reconciliation is permutation-invariant: any
permutation of the batch yields a registry storing the same row under
every symbol. -/
theorem claim_C8_amended (l l2 : List Coin) (syms : List String) (st : Store) (s : String)
    (hperm : l.Perm l2) (hnodup : (l.map binanceSymbol).Nodup) :
    lookupCrypto ((reconcileLoop (fun _ => false) l syms st).2.1.cryptocurrencies) s =
      lookupCrypto ((reconcileLoop (fun _ => false) l2 syms st).2.1.cryptocurrencies) s := by
  rw [reconcileLoop_noFault _ l syms st (fun _ _ => rfl),
      reconcileLoop_noFault _ l2 syms st (fun _ _ => rfl)]
  dsimp only
  rw [lookupCrypto_reconcileAll, lookupCrypto_reconcileAll]
  have hpair : l.Pairwise (fun a b => binanceSymbol a ≠ binanceSymbol b) :=
    List.pairwise_map.mp hnodup
  have hsym2 : Symmetric (fun a b : Coin => binanceSymbol a ≠ binanceSymbol b) :=
    fun _ _ h e => h e.symm
  refine List.Perm.foldl_eq' hperm ?_ _
  intro x hx y hy z
  by_cases hxy : x = y
  · subst hxy; rfl
  · exact upStep_comm x y s (List.Pairwise.forall hsym2 hpair hx hy hxy) z

/-- Witness for the amended C8 on a two-asset batch with distinct
symbols and its reversal. -/
theorem claim_C8_witness :
    lookupCrypto ((reconcileLoop (fun _ => false) [cX, cY] []
        ⟨[], []⟩).2.1.cryptocurrencies) "AAAUSDT" =
      lookupCrypto ((reconcileLoop (fun _ => false) [cY, cX] []
        ⟨[], []⟩).2.1.cryptocurrencies) "AAAUSDT" :=
  claim_C8_amended [cX, cY] [cY, cX] [] ⟨[], []⟩ "AAAUSDT" (by decide) (by decide)

/-- Claim C9 (counterexample): the candle import returns no counts.
Its complete result (store and error flag) after attempting one
duplicate candle is identical to the result of attempting no candles at
all, so no count of candles attempted (or written) can be read off its
return value — the script's loop returns nothing. -/
theorem claim_C9_counterexample :
    candleLoop "BTCUSDT" "1h" [k1] ⟨[], [row1]⟩ =
      candleLoop "BTCUSDT" "1h" [] ⟨[], [row1]⟩ ∧
    ([k1] : List RawCandle).length ≠ ([] : List RawCandle).length := by
  constructor
  · decide
  · decide

/-- Claim C9 (amended): the import returns only the updated store;
still, for every pair the number of candles attempted equals the number
of rows actually written plus the number of duplicates skipped by the
insert-or-ignore write. -/
theorem claim_C9_amended (sym tf : String) (ks : List RawCandle) (st : Store)
    (h : ∀ k ∈ ks, (normalizeCandle k).isSome) :
    ks.length + st.price_history.length =
      ((candleLoop sym tf ks st).1.price_history).length +
        dupSkipped sym tf ks st.price_history := by
  induction ks generalizing st with
  | nil => simp [candleLoop, dupSkipped]
  | cons k rest ih =>
      obtain ⟨p, hp⟩ := Option.isSome_iff_exists.mp (h k (List.mem_cons_self k rest))
      have hstep : candleLoop sym tf (k :: rest) st =
          candleLoop sym tf rest
            { st with price_history := insertPrice st.price_history sym tf p } := by
        conv_lhs => unfold candleLoop
        rw [hp]
      rw [hstep]
      have hdup : dupSkipped sym tf (k :: rest) st.price_history =
          (if keyPresent st.price_history sym tf p.open_time then 1 else 0) +
            dupSkipped sym tf rest (insertPrice st.price_history sym tf p) := by
        conv_lhs => unfold dupSkipped
        rw [hp]
      rw [hdup]
      have ih2 := ih { st with price_history := insertPrice st.price_history sym tf p }
        (fun x hx => h x (List.mem_cons_of_mem k hx))
      by_cases hpres : keyPresent st.price_history sym tf p.open_time = true
      · rw [if_pos hpres]
        have hins : insertPrice st.price_history sym tf p = st.price_history := by
          unfold insertPrice
          rw [if_pos hpres]
        rw [hins] at ih2
        rw [hins]
        simp only [List.length_cons] at ih2 ⊢
        omega
      · rw [if_neg hpres]
        have hlen : (insertPrice st.price_history sym tf p).length =
            st.price_history.length + 1 := by
          unfold insertPrice
          rw [if_neg hpres]
          simp
        simp only [List.length_cons] at ih2 ⊢
        omega

/-- Witness for the amended C9: three candles attempted against an
empty store, one of them a within-batch duplicate — two rows written,
one duplicate skipped. -/
theorem claim_C9_witness :
    ([k1, k1, k2] : List RawCandle).length + (⟨[], []⟩ : Store).price_history.length =
      ((candleLoop "BTCUSDT" "1h" [k1, k1, k2] ⟨[], []⟩).1.price_history).length +
        dupSkipped "BTCUSDT" "1h" [k1, k1, k2] (⟨[], []⟩ : Store).price_history :=
  claim_C9_amended "BTCUSDT" "1h" [k1, k1, k2] ⟨[], []⟩ (by decide)
